import Mathlib

/-!
Verification of `dice-dydakt/concurrency-philosophers` (src/philosophers.js,
src/philosophers.test.js) against its natural-language specification.

The JavaScript source is shallowly embedded: classes become structures,
methods become pure functions with explicit state passing, the process-wide
event log becomes an explicit `LogState`, nondeterministic inputs
(`Date.now()`, `Math.random()`-generated run ids, the fork states observed
across suspension points) become explicit parameters, and `throw` becomes an
`Except`-style result.  Methods whose bodies are TODO stubs in the source
(`startAsym`, `startConductor`, `startSimultaneous`, `Conductor.requestSeat`,
`Conductor.leaveSeat`) are modelled from the specification, as marked in
their doc comments.
-/

namespace Phil

/-- Event kinds emitted by the program (src/philosophers.js, README). -/
inductive EventKind
  | TRY
  | ACQUIRE
  | EAT_START
  | EAT_END
  | RELEASE
  | TIMEOUT
deriving DecidableEq, Repr

/-- One event record, with exactly the six fields built by `log`
(src/philosophers.js lines 28-39). -/
structure Entry where
  runId : Option String
  algorithm : String
  t : Int
  phil : Nat
  event : EventKind
  forks : List Nat
deriving DecidableEq, Repr

/-- The module-level mutable state of the logging subsystem
(src/philosophers.js lines 8-11): `eventLog`, `startTime`,
`currentAlgorithm`, `currentRunId`. -/
structure LogState where
  eventLog : List Entry
  startTime : Int
  currentAlgorithm : String
  currentRunId : Option String
deriving DecidableEq, Repr

/-- Initial module state (src/philosophers.js lines 8-11): empty log,
algorithm `"unknown"`, no run id; `startTime` is the load-time clock value. -/
def LogState.init (loadTime : Int) : LogState :=
  { eventLog := [], startTime := loadTime, currentAlgorithm := "unknown",
    currentRunId := none }

/-- JavaScript `algorithm || currentAlgorithm` (line 22): a missing argument
(`none`) and the empty string are falsy and keep the old value. -/
def jsOrElse (arg : Option String) (old : String) : String :=
  match arg with
  | none => old
  | some a => if a = "" then old else a

/-- `startRun(algorithm)` (src/philosophers.js lines 21-26).  The generated
short id and the current clock value are passed in explicitly.  Returns the
new run id together with the updated module state. -/
def startRun (algorithm : Option String) (newId : String) (now : Int)
    (st : LogState) : String × LogState :=
  (newId,
    { st with
        currentAlgorithm := jsOrElse algorithm st.currentAlgorithm
        currentRunId := some newId
        startTime := now })

/-- `log(philId, event, forks)` (src/philosophers.js lines 28-39): appends one
entry built from the current module state and the clock value `now`. -/
def logEvent (philId : Nat) (event : EventKind) (forks : List Nat) (now : Int)
    (st : LogState) : LogState :=
  { st with
      eventLog := st.eventLog ++
        [{ runId := st.currentRunId
           algorithm := st.currentAlgorithm
           t := now - st.startTime
           phil := philId
           event := event
           forks := forks }] }

/-- `clearEventLog()` (src/philosophers.js lines 45-47). -/
def clearEventLog (st : LogState) : LogState :=
  { st with eventLog := [] }

/-- A `Fork` (src/philosophers.js lines 50-55): identity, binary state
(0 = free, 1 = taken), holder (`null` or a philosopher id). -/
structure Fork where
  id : Nat
  state : Nat
  holder : Option Nat
deriving DecidableEq, Repr

/-- The `Fork` constructor (lines 51-55). -/
def Fork.init (id : Nat) : Fork :=
  { id := id, state := 0, holder := none }

/-- How JavaScript string interpolation prints the `holder` field: `null`
stays the literal text `null`, a number prints as itself. -/
def holderString : Option Nat → String
  | none => "null"
  | some h => toString h

/-- `Fork.release(requesterId, forks)` (src/philosophers.js lines 79-86).
`throw` is modelled as an `Except.error` carrying the interpolated message;
the fork and module state are returned unchanged in that case because the
JavaScript `throw` happens before any mutation.  On success the fork becomes
free with no holder and one RELEASE event is logged. -/
def Fork.release (f : Fork) (requesterId : Nat) (forks : List Nat) (now : Int)
    (st : LogState) : Except String Unit × Fork × LogState :=
  if f.holder = some requesterId then
    (Except.ok (),
     { f with state := 0, holder := none },
     logEvent requesterId EventKind.RELEASE forks now st)
  else
    (Except.error ("Philosopher " ++ toString requesterId ++
       " cannot release fork held by " ++ holderString f.holder),
     f, st)

/-- One check of the acquire loop (src/philosophers.js lines 68-73): if the
fork is free it becomes taken with the requester as holder (`some`),
otherwise the loop will wait (`none`). -/
def Fork.acquireCheck (f : Fork) (requesterId : Nat) : Option Fork :=
  if f.state = 0 then some { f with state := 1, holder := some requesterId }
  else none

/-- An observable step of `Fork.acquire`: a logged event or an awaited
`delay(ms)` suspension. -/
inductive AcquireStep
  | logged (e : EventKind)
  | waited (ms : Nat)
deriving DecidableEq, Repr

/-- The retry loop of `Fork.acquire` (src/philosophers.js lines 64-76),
parametrized by the list of fork values observed at the successive checks
(the fork may be changed by other actors across suspension points).
`w` is the current `waitTime`; `maxWait` is 1000.  Returns the steps taken
and, if some observed fork was free, the fork value written back. -/
def acquireLoop (requesterId : Nat) (w : Nat) :
    List Fork → List AcquireStep × Option Fork
  | [] => ([], none)
  | f :: rest =>
    match Fork.acquireCheck f requesterId with
    | some f' => ([AcquireStep.logged EventKind.ACQUIRE], some f')
    | none =>
      let r := acquireLoop requesterId (min (w * 2) 1000) rest
      (AcquireStep.waited w :: r.1, r.2)

/-- `Fork.acquire(requesterId, forks)` (src/philosophers.js lines 61-77):
logs TRY first, then runs the backoff loop with initial `waitTime = 1`. -/
def Fork.acquire (requesterId : Nat) (obs : List Fork) :
    List AcquireStep × Option Fork :=
  let r := acquireLoop requesterId 1 obs
  (AcquireStep.logged EventKind.TRY :: r.1, r.2)

/-- The `waitTime` value before the (k+1)-th wait: starts at 1, doubles
after each wait, capped at 1000 (src/philosophers.js lines 64-65, 75). -/
def waitTimeAt : Nat → Nat
  | 0 => 1
  | k + 1 => min (waitTimeAt k * 2) 1000

/-! ## Trace analyzer (`analyzeLog`, src/philosophers.test.js lines 256-319) -/

/-- A recorded analysis error: log index plus message
(`{index: i, error: ...}` objects pushed by `analyzeLog`). -/
structure AnalysisError where
  index : Nat
  error : String
deriving DecidableEq, Repr

/-- The `results` object of `analyzeLog` (src/philosophers.test.js lines
257-269).  The JavaScript `Set` of currently eating philosophers is modelled
as a duplicate-free list in insertion order. -/
structure AnalysisResults where
  mealsPerPhilosopher : List Nat
  sequenceErrors : List AnalysisError
  mutualExclusionViolations : List AnalysisError
  currentlyEating : List Nat
deriving DecidableEq, Repr

/-- JavaScript `Set.prototype.add`: no-op when the element is present. -/
def setAdd (s : List Nat) (x : Nat) : List Nat :=
  if x ∈ s then s else s ++ [x]

/-- JavaScript `Set.prototype.delete`. -/
def setDelete (s : List Nat) (x : Nat) : List Nat :=
  s.filter (fun y => y ≠ x)

/-- The left ring neighbor `(phil - 1 + n) % n`
(src/philosophers.test.js line 279), written over `Nat`. -/
def leftNeighbor (n phil : Nat) : Nat :=
  (phil + n - 1) % n

/-- The right ring neighbor `(phil + 1) % n`
(src/philosophers.test.js line 280). -/
def rightNeighbor (n phil : Nat) : Nat :=
  (phil + 1) % n

/-- One iteration of the `analyzeLog` loop (src/philosophers.test.js lines
271-316) on entry `e` at log index `idx`. -/
def analyzeStep (n idx : Nat) (res : AnalysisResults) (e : Entry) :
    AnalysisResults :=
  match e.event with
  | EventKind.EAT_START =>
    let ln := leftNeighbor n e.phil
    let rn := rightNeighbor n e.phil
    let res1 :=
      if ln ∈ res.currentlyEating then
        { res with mutualExclusionViolations :=
            res.mutualExclusionViolations ++
              [{ index := idx
                 error := "Philosopher " ++ toString e.phil ++
                   " started eating while neighbor " ++ toString ln ++
                   " is eating" }] }
      else res
    let res2 :=
      if rn ∈ res1.currentlyEating then
        { res1 with mutualExclusionViolations :=
            res1.mutualExclusionViolations ++
              [{ index := idx
                 error := "Philosopher " ++ toString e.phil ++
                   " started eating while neighbor " ++ toString rn ++
                   " is eating" }] }
      else res1
    { res2 with currentlyEating := setAdd res2.currentlyEating e.phil }
  | EventKind.EAT_END =>
    let res1 :=
      if e.phil ∈ res.currentlyEating then res
      else
        { res with sequenceErrors :=
            res.sequenceErrors ++
              [{ index := idx
                 error := "Philosopher " ++ toString e.phil ++
                   " ended eating but was not eating" }] }
    { res1 with
        currentlyEating := setDelete res1.currentlyEating e.phil
        mealsPerPhilosopher :=
          res1.mealsPerPhilosopher.set e.phil
            (res1.mealsPerPhilosopher.getD e.phil 0 + 1) }
  | _ => res

/-- The initial `results` object (src/philosophers.test.js lines 257-269). -/
def analyzeInit (n : Nat) : AnalysisResults :=
  { mealsPerPhilosopher := List.replicate n 0
    sequenceErrors := []
    mutualExclusionViolations := []
    currentlyEating := [] }

/-- Loop of `analyzeLog` from log index `idx` onward. -/
def analyzeFrom (n idx : Nat) (res : AnalysisResults) :
    List Entry → AnalysisResults
  | [] => res
  | e :: rest => analyzeFrom n (idx + 1) (analyzeStep n idx res e) rest

/-- `analyzeLog(log, n)` (src/philosophers.test.js lines 256-319). -/
def analyzeLog (logList : List Entry) (n : Nat) : AnalysisResults :=
  analyzeFrom n 0 (analyzeInit n) logList

/-! ## Per-actor strategy traces

A `Philosopher` (src/philosophers.js lines 90-100) with identity `id` over
`n` forks uses left fork `f1 = id % n` and right fork `f2 = (id + 1) % n`.
A strategy run is embedded as the sequence of observable actions the actor
performs; the number of failed availability checks inside each blocking
acquisition (which depends on the other actors) is supplied by an oracle
`waitsOf : Nat → Nat` giving, for the k-th blocking acquisition of the run,
how many backoff waits it performs before succeeding. -/

/-- An observable action of one actor's strategy run. -/
inductive PhilAction
  | tryEv (ctx : List Nat)
  | waitMs (ms : Nat)
  | acquireEv (targets : List Nat) (ctx : List Nat)
  | eatStart (ctx : List Nat)
  | eatEnd (ctx : List Nat)
  | releaseEv (target : Nat) (ctx : List Nat)
  | seatRequest
  | seatLeave
deriving DecidableEq, Repr

/-- Actions of one completed `forks[target].acquire(id, ctx)` call that
performed `j` backoff waits: TRY, the waits with the doubling schedule,
then ACQUIRE of the target fork (src/philosophers.js lines 61-77). -/
def acquireActs (target : Nat) (ctx : List Nat) (j : Nat) : List PhilAction :=
  PhilAction.tryEv ctx ::
    (List.range j).map (fun k => PhilAction.waitMs (waitTimeAt k)) ++
    [PhilAction.acquireEv [target] ctx]

/-- The eat-and-release tail shared by every strategy iteration
(src/philosophers.js lines 116-123): EAT_START, `delay(1)`, EAT_END, then
release left fork and right fork. -/
def eatThenRelease (f1 f2 : Nat) : List PhilAction :=
  [PhilAction.eatStart [f1, f2], PhilAction.waitMs 1,
   PhilAction.eatEnd [f1, f2],
   PhilAction.releaseEv f1 [f1, f2], PhilAction.releaseEv f2 [f1, f2]]

/-- `Philosopher.startNaive(count)` (src/philosophers.js lines 106-125):
`count` iterations, each acquiring the left fork then the right fork, then
eating and releasing both. -/
def startNaiveTrace (id n count : Nat) (waitsOf : Nat → Nat) :
    List PhilAction :=
  let f1 := id % n
  let f2 := (id + 1) % n
  (List.range count).flatMap (fun i =>
    acquireActs f1 [f1, f2] (waitsOf (2 * i)) ++
    acquireActs f2 [f1, f2] (waitsOf (2 * i + 1)) ++
    eatThenRelease f1 f2)

/-- Modelled from the spec: the body of `Philosopher.startAsym` is a TODO
stub in src/philosophers.js (lines 130-136); modelled from spec section 4.3,
"actors with even identity acquire left-then-right; actors with odd identity
acquire right-then-left", both acquisitions going through the Resource
primitive sequentially, with the common eat-and-release tail. -/
def startAsymTrace (id n count : Nat) (waitsOf : Nat → Nat) :
    List PhilAction :=
  let f1 := id % n
  let f2 := (id + 1) % n
  (List.range count).flatMap (fun i =>
    (if id % 2 = 0 then
      acquireActs f1 [f1, f2] (waitsOf (2 * i)) ++
      acquireActs f2 [f1, f2] (waitsOf (2 * i + 1))
    else
      acquireActs f2 [f1, f2] (waitsOf (2 * i)) ++
      acquireActs f1 [f1, f2] (waitsOf (2 * i + 1))) ++
    eatThenRelease f1 f2)

/-- Modelled from the spec: the body of `Philosopher.startConductor` is a
TODO stub in src/philosophers.js (lines 141-147); modelled from spec section
4.3, "actor calls requestSeat() on the shared Conductor before attempting
any resource acquisition; once granted a seat, acquires left then right via
the Resource primitive; after eating and releasing both resources, calls
leaveSeat()". -/
def startConductorTrace (id n count : Nat) (waitsOf : Nat → Nat) :
    List PhilAction :=
  let f1 := id % n
  let f2 := (id + 1) % n
  (List.range count).flatMap (fun i =>
    PhilAction.seatRequest ::
    (acquireActs f1 [f1, f2] (waitsOf (2 * i)) ++
     acquireActs f2 [f1, f2] (waitsOf (2 * i + 1)) ++
     eatThenRelease f1 f2 ++
     [PhilAction.seatLeave]))

/-- Modelled from the spec: the body of `Philosopher.startSimultaneous` is a
TODO stub in src/philosophers.js (lines 163-169); modelled from spec section
4.3, "logs TRY for both resource indices, then atomically checks whether
both target resources are simultaneously free; if so, transitions both to
held ... and logs a single ACQUIRE event listing both resource indices; if
either is unavailable ... backs off (same exponential schedule)", then the
common eat-and-release tail.  Here `waitsOf k` is the number of failed
atomic pair-checks of the k-th acquisition (one backoff wait each). -/
def startSimultaneousTrace (id n count : Nat) (waitsOf : Nat → Nat) :
    List PhilAction :=
  let f1 := id % n
  let f2 := (id + 1) % n
  (List.range count).flatMap (fun i =>
    PhilAction.tryEv [f1, f2] ::
      ((List.range (waitsOf i)).map (fun k => PhilAction.waitMs (waitTimeAt k)) ++
       [PhilAction.acquireEv [f1, f2] [f1, f2]] ++
       eatThenRelease f1 f2))

/-- Is this action an EAT_END log? -/
def isEatEndAct : PhilAction → Bool
  | PhilAction.eatEnd _ => true
  | _ => false

/-- Is this action an EAT_START log? -/
def isEatStartAct : PhilAction → Bool
  | PhilAction.eatStart _ => true
  | _ => false

/-- Is this action an EAT_START or EAT_END log? -/
def isEatAct (a : PhilAction) : Bool :=
  isEatStartAct a || isEatEndAct a

/-- Number of completed meals visible in an actor trace: one per EAT_END. -/
def mealsInTrace (tr : List PhilAction) : Nat :=
  tr.countP isEatEndAct

/-- Number of EAT_START actions in an actor trace. -/
def eatStartsInTrace (tr : List PhilAction) : Nat :=
  tr.countP isEatStartAct

/-- The subsequence of EAT_START/EAT_END actions of an actor trace. -/
def eatEvents (tr : List PhilAction) : List PhilAction :=
  tr.filter isEatAct

/-- The fork indices taken by an action, when it is a completed
acquisition. -/
def acquireTargetsOf : PhilAction → Option (List Nat)
  | PhilAction.acquireEv ts _ => some ts
  | _ => none

/-- The acquisitions of an actor trace, in order: for each completed
acquisition, the list of fork indices taken by it. -/
def acquiredTargets (tr : List PhilAction) : List (List Nat) :=
  tr.filterMap acquireTargetsOf

/-! ## Conductor (src/philosophers.js lines 174-187; methods are TODO stubs,
modelled from spec section 4.2) -/

/-- Modelled from the spec: the `Conductor` constructor stores the seat
capacity and an empty FIFO waiting queue (src/philosophers.js lines 175-178);
the occupied-seat count required by spec section 4.2 ("If occupied seats <
capacity ...") is tracked explicitly. -/
structure Conductor where
  capacity : Nat
  occupied : Nat
  waiting : List Nat
deriving DecidableEq, Repr

/-- `new Conductor(maxSeats)`: capacity `maxSeats`, no seat occupied,
nobody waiting. -/
def Conductor.init (maxSeats : Nat) : Conductor :=
  { capacity := maxSeats, occupied := 0, waiting := [] }

/-- Outcome of a `requestSeat()` call for its caller. -/
inductive SeatOutcome
  | granted
  | enqueued
deriving DecidableEq, Repr

/-- Modelled from the spec: `Conductor.requestSeat()` is a TODO stub in
src/philosophers.js (lines 181-182); modelled from spec section 4.2, "If
occupied seats < capacity, immediately occupies a seat and returns.
Otherwise enqueues the caller and suspends until a seat is freed and the
caller is next in FIFO order". -/
def Conductor.requestSeat (c : Conductor) (caller : Nat) :
    SeatOutcome × Conductor :=
  if c.occupied < c.capacity then
    (SeatOutcome.granted, { c with occupied := c.occupied + 1 })
  else
    (SeatOutcome.enqueued, { c with waiting := c.waiting ++ [caller] })

/-- Modelled from the spec: `Conductor.leaveSeat()` is a TODO stub in
src/philosophers.js (lines 185-186); modelled from spec section 4.2,
"decrements occupied count; if a waiter is queued, that waiter is granted
the freed seat (transferred, not reopened for general contention) and
resumed".  Returns the resumed waiter, if any. -/
def Conductor.leaveSeat (c : Conductor) : Option Nat × Conductor :=
  match c.waiting with
  | [] => (none, { c with occupied := c.occupied - 1 })
  | w :: rest => (some w, { c with waiting := rest })

/-- One call in an interleaving of `requestSeat`/`leaveSeat` calls. -/
inductive CondOp
  | request (caller : Nat)
  | leave
deriving DecidableEq, Repr

/-- Apply one call to the conductor state, dropping the caller-visible
outcome. -/
def Conductor.applyOp (c : Conductor) : CondOp → Conductor
  | CondOp.request caller => (c.requestSeat caller).2
  | CondOp.leave => c.leaveSeat.2

/-- Conductor state after an arbitrary finite interleaving of calls. -/
def Conductor.runOps (c : Conductor) (ops : List CondOp) : Conductor :=
  ops.foldl Conductor.applyOp c

/-- One `log(philId, event, forks)` call together with the clock value at
which it runs. -/
inductive LogCall
  | call (philId : Nat) (event : EventKind) (forks : List Nat) (now : Int)
deriving DecidableEq, Repr

/-- Apply a sequence of `log` calls to the module state, in order. -/
def applyCalls (st : LogState) : List LogCall → LogState
  | [] => st
  | LogCall.call p e fks now :: rest => applyCalls (logEvent p e fks now st) rest

/-- The entry a `log` call appends when the current run id is `rid`, the
current algorithm is `alg` and the run started at clock value `t0`. -/
def entryOf (rid : Option String) (alg : String) (t0 : Int) : LogCall → Entry
  | LogCall.call p e fks now =>
    { runId := rid, algorithm := alg, t := now - t0, phil := p,
      event := e, forks := fks }

/-! ## Theorems -/

/-- The backoff value before the (k+1)-th wait is `min (2 ^ k) 1000`. -/
theorem waitTimeAt_eq (k : Nat) : waitTimeAt k = min (2 ^ k) 1000 := by
  induction k with
  | zero => rfl
  | succ k ih =>
    have h2 : 2 ^ (k + 1) = 2 ^ k * 2 := by rw [pow_succ]
    rw [waitTimeAt, ih, h2]
    omega

/-- Shape of the acquire retry loop when the fork is seen held for
`held.length` checks and then free: one wait per failed check, following the
doubling schedule from `waitTimeAt i`, then a single ACQUIRE. -/
theorem acquireLoop_shape (r : Nat) (held : List Fork) :
    ∀ (i : Nat) (f : Fork) (rest : List Fork),
      (∀ g ∈ held, g.state ≠ 0) → f.state = 0 →
      acquireLoop r (waitTimeAt i) (held ++ f :: rest) =
        ((List.range held.length).map
            (fun k => AcquireStep.waited (waitTimeAt (i + k))) ++
          [AcquireStep.logged EventKind.ACQUIRE],
         some { f with state := 1, holder := some r }) := by
  induction held with
  | nil =>
    intro i f rest _ hf
    simp [acquireLoop, Fork.acquireCheck, hf]
  | cons g gs ih =>
    intro i f rest hheld hf
    have hg : g.state ≠ 0 := hheld g (by simp)
    have hrec := ih (i + 1) f rest (fun x hx => hheld x (by simp [hx])) hf
    rw [List.cons_append, acquireLoop]
    rw [show Fork.acquireCheck g r = none by simp [Fork.acquireCheck, hg]]
    simp only []
    rw [show min (waitTimeAt i * 2) 1000 = waitTimeAt (i + 1) from rfl, hrec]
    have hfun : (fun k => AcquireStep.waited (waitTimeAt (i + 1 + k))) =
        (fun k => AcquireStep.waited (waitTimeAt (i + (k + 1)))) := by
      funext k
      have hik : i + 1 + k = i + (k + 1) := by omega
      rw [hik]
    rw [hfun]
    simp [List.range_succ_eq_map, List.map_map, Function.comp_def]

/-- Claim C3: `Fork.acquire` first logs exactly one TRY event; when the fork
is observed held for `j` checks and free at the next check, it performs
exactly `j` waits whose k-th duration (1-indexed) is `min (2 ^ (k-1)) 1000`
(the sequence 1, 2, 4, 8, ... capped at 1000), then transitions the fork to
held with the requester as holder, logs exactly one ACQUIRE event, and
returns with no further suspension; when the fork is free at the first
check there is no wait at all. -/
theorem acquire_beb_schedule (r : Nat) (held : List Fork) (f : Fork)
    (rest : List Fork) (hheld : ∀ g ∈ held, g.state ≠ 0) (hf : f.state = 0) :
    Fork.acquire r (held ++ f :: rest) =
      (AcquireStep.logged EventKind.TRY ::
        ((List.range held.length).map
            (fun k => AcquireStep.waited (min (2 ^ k) 1000)) ++
          [AcquireStep.logged EventKind.ACQUIRE]),
       some { f with state := 1, holder := some r }) := by
  have h1 : acquireLoop r 1 (held ++ f :: rest) =
      ((List.range held.length).map
          (fun k => AcquireStep.waited (waitTimeAt (0 + k))) ++
        [AcquireStep.logged EventKind.ACQUIRE],
       some { f with state := 1, holder := some r }) :=
    acquireLoop_shape r held 0 f rest hheld hf
  simp only [Fork.acquire, h1, Nat.zero_add, waitTimeAt_eq]

/-- Witness for C3: philosopher 4 acquires a fork observed held once then
free, waiting exactly `min (2 ^ 0) 1000 = 1` time unit. -/
theorem acquire_beb_schedule_witness :
    (∀ g ∈ [(⟨0, 1, some 1⟩ : Fork)], g.state ≠ 0) ∧ (Fork.init 2).state = 0 ∧
    Fork.acquire 4 ([(⟨0, 1, some 1⟩ : Fork)] ++ Fork.init 2 :: []) =
      (AcquireStep.logged EventKind.TRY ::
        ((List.range (List.length [(⟨0, 1, some 1⟩ : Fork)])).map
            (fun k => AcquireStep.waited (min (2 ^ k) 1000)) ++
          [AcquireStep.logged EventKind.ACQUIRE]),
       some { Fork.init 2 with state := 1, holder := some 4 }) :=
  ⟨by decide, by decide,
    acquire_beb_schedule 4 [⟨0, 1, some 1⟩] (Fork.init 2) []
      (by decide) (by decide)⟩

/-- Claim C2: `Fork.release` fails exactly when the requester is not the
current holder (including a free fork, whose holder is `none`), with an
error message naming both the requester and the actual holder; when the
requester is the holder, it frees the fork, clears the holder, and appends
exactly one RELEASE event to the log. -/
theorem release_ownership (f : Fork) (r : Nat) (ctx : List Nat) (now : Int)
    (st : LogState) :
    (f.holder ≠ some r →
      f.release r ctx now st =
        (Except.error ("Philosopher " ++ toString r ++
            " cannot release fork held by " ++ holderString f.holder),
         f, st)) ∧
    (f.holder = some r →
      f.release r ctx now st =
        (Except.ok (), { f with state := 0, holder := none },
         { st with eventLog := st.eventLog ++
             [{ runId := st.currentRunId, algorithm := st.currentAlgorithm,
                t := now - st.startTime, phil := r,
                event := EventKind.RELEASE, forks := ctx }] })) := by
  constructor <;> intro h <;> simp [Fork.release, logEvent, h]

/-- Witness for C2: holder 1, requester 2 fails with a message naming both;
a matching requester frees fork 0 and logs one RELEASE event. -/
theorem release_ownership_witness :
    ((⟨0, 1, some 1⟩ : Fork).holder ≠ some 2 ∧
      (⟨0, 1, some 1⟩ : Fork).release 2 [0] 5 (LogState.init 0) =
        (Except.error ("Philosopher " ++ toString 2 ++
            " cannot release fork held by " ++ holderString (some 1)),
         (⟨0, 1, some 1⟩ : Fork), LogState.init 0)) ∧
    ((⟨0, 1, some 1⟩ : Fork).holder = some 1 ∧
      (⟨0, 1, some 1⟩ : Fork).release 1 [0] 5 (LogState.init 0) =
        (Except.ok (), { (⟨0, 1, some 1⟩ : Fork) with state := 0, holder := none },
         { LogState.init 0 with eventLog := (LogState.init 0).eventLog ++
             [{ runId := (LogState.init 0).currentRunId,
                algorithm := (LogState.init 0).currentAlgorithm,
                t := 5 - (LogState.init 0).startTime, phil := 1,
                event := EventKind.RELEASE, forks := [0] }] })) :=
  ⟨⟨by decide,
    (release_ownership ⟨0, 1, some 1⟩ 2 [0] 5 (LogState.init 0)).1 (by decide)⟩,
   ⟨by decide,
    (release_ownership ⟨0, 1, some 1⟩ 1 [0] 5 (LogState.init 0)).2 (by decide)⟩⟩

/-- Claim C9: a failing `Fork.release` (ownership error) leaves the fork's
state and holder unchanged and appends no event to the log. -/
theorem release_error_atomic (f : Fork) (r : Nat) (ctx : List Nat) (now : Int)
    (st : LogState) (msg : String)
    (h : (f.release r ctx now st).1 = Except.error msg) :
    (f.release r ctx now st).2.1 = f ∧ (f.release r ctx now st).2.2 = st := by
  by_cases hcase : f.holder = some r
  · simp [Fork.release, hcase] at h
  · simp [Fork.release, hcase]

/-- Witness for C9: philosopher 1 fails to release a fork held by 0; the
fork and the log are unchanged. -/
theorem release_error_atomic_witness :
    ((⟨3, 1, some 0⟩ : Fork).release 1 [3] 0 (LogState.init 0)).1 =
      Except.error ("Philosopher " ++ toString 1 ++
        " cannot release fork held by " ++ holderString (some 0)) ∧
    (((⟨3, 1, some 0⟩ : Fork).release 1 [3] 0 (LogState.init 0)).2.1 =
        (⟨3, 1, some 0⟩ : Fork) ∧
      ((⟨3, 1, some 0⟩ : Fork).release 1 [3] 0 (LogState.init 0)).2.2 =
        LogState.init 0) :=
  ⟨by rfl,
    release_error_atomic ⟨3, 1, some 0⟩ 1 [3] 0 (LogState.init 0)
      ("Philosopher " ++ toString 1 ++ " cannot release fork held by " ++
        holderString (some 0)) (by rfl)⟩

/-- A completed acquire loop returns a fork that is held by the requester. -/
theorem acquireLoop_result (r : Nat) (obs : List Fork) :
    ∀ (w : Nat) (f' : Fork), (acquireLoop r w obs).2 = some f' →
      f'.state = 1 ∧ f'.holder = some r := by
  induction obs with
  | nil => intro w f' h; simp [acquireLoop] at h
  | cons f rest ih =>
    intro w f' h
    by_cases hf : f.state = 0
    · simp [acquireLoop, Fork.acquireCheck, hf] at h
      simp [← h]
    · simp [acquireLoop, Fork.acquireCheck, hf] at h
      exact ih _ f' h

/-- Claim C6: the invariant "state = 1 iff the holder is set" holds after
construction, after every completed acquire, and after every release call
(successful or failing); and a release call that changes the fork's state
was made by the current holder. -/
theorem fork_state_holder_invariant :
    (∀ id, ((Fork.init id).state = 1 ↔ (Fork.init id).holder ≠ none)) ∧
    (∀ (r : Nat) (obs : List Fork) (steps : List AcquireStep) (f' : Fork),
      Fork.acquire r obs = (steps, some f') →
        (f'.state = 1 ↔ f'.holder ≠ none)) ∧
    (∀ (f : Fork) (r : Nat) (ctx : List Nat) (now : Int) (st : LogState),
      (f.state = 1 ↔ f.holder ≠ none) →
        (((f.release r ctx now st).2.1).state = 1 ↔
          ((f.release r ctx now st).2.1).holder ≠ none)) ∧
    (∀ (f : Fork) (r : Nat) (ctx : List Nat) (now : Int) (st : LogState),
      ((f.release r ctx now st).2.1).state ≠ f.state → f.holder = some r) := by
  refine ⟨fun id => by simp [Fork.init], ?_, ?_, ?_⟩
  · intro r obs steps f' h
    have h2 : (acquireLoop r 1 obs).2 = some f' := by
      have := congrArg Prod.snd h
      simpa [Fork.acquire] using this
    have := acquireLoop_result r obs 1 f' h2
    simp [this.1, this.2]
  · intro f r ctx now st hinv
    by_cases hcase : f.holder = some r
    · simp [Fork.release, hcase]
    · simpa [Fork.release, hcase] using hinv
  · intro f r ctx now st h
    by_cases hcase : f.holder = some r
    · exact hcase
    · simp [Fork.release, hcase] at h

/-- Witness for C6: a completed acquire leaves the fork held with a set
holder, satisfying the invariant. -/
theorem fork_state_holder_invariant_witness :
    Fork.acquire 7 [Fork.init 0] =
      ([AcquireStep.logged EventKind.TRY, AcquireStep.logged EventKind.ACQUIRE],
        some (⟨0, 1, some 7⟩ : Fork)) ∧
    ((⟨0, 1, some 7⟩ : Fork).state = 1 ↔ (⟨0, 1, some 7⟩ : Fork).holder ≠ none) :=
  ⟨by decide,
    fork_state_holder_invariant.2.1 7 [Fork.init 0]
      [AcquireStep.logged EventKind.TRY, AcquireStep.logged EventKind.ACQUIRE]
      ⟨0, 1, some 7⟩ (by decide)⟩

/-- A sequence of `log` calls appends exactly one entry per call, each built
from the module state's run id, algorithm, and start time, which the calls
do not change. -/
theorem applyCalls_eventLog (calls : List LogCall) :
    ∀ st : LogState,
      applyCalls st calls =
        { st with eventLog := st.eventLog ++
            calls.map (entryOf st.currentRunId st.currentAlgorithm st.startTime) } := by
  induction calls with
  | nil => intro st; simp [applyCalls]
  | cons c rest ih =>
    intro st
    cases c with
    | call p e fks now =>
      rw [applyCalls, ih]
      simp [logEvent, entryOf]

/-- Claim C8: every appended event record has exactly the fields `runId`,
`algorithm`, `t`, `phil`, `event`, `forks`; after `startRun(a)` (with a
truthy name `a`) returned the fresh id, every subsequent `log` call appends
an entry whose `runId` and `algorithm` are the ones set by that `startRun`
and whose `t` is the clock value minus the `startRun` clock value (elapsed
milliseconds); and `clearEventLog` leaves the log empty. -/
theorem log_entry_fields (st : LogState) (a id : String) (t0 : Int)
    (calls : List LogCall) (ha : a ≠ "") :
    (startRun (some a) id t0 st).1 = id ∧
    applyCalls (startRun (some a) id t0 st).2 calls =
      { (startRun (some a) id t0 st).2 with
          eventLog := st.eventLog ++ calls.map (entryOf (some id) a t0) } ∧
    (clearEventLog st).eventLog = [] := by
  refine ⟨rfl, ?_, rfl⟩
  rw [applyCalls_eventLog]
  simp [startRun, jsOrElse, ha]

/-- Witness for C8: one run named `naive` starting at clock 100, one `log`
call at clock 107 producing an entry with elapsed time 7. -/
theorem log_entry_fields_witness :
    ("naive" ≠ "") ∧
    ((startRun (some "naive") "r1" 100 (LogState.init 0)).1 = "r1" ∧
      applyCalls (startRun (some "naive") "r1" 100 (LogState.init 0)).2
          [LogCall.call 1 EventKind.EAT_START [1, 2] 107] =
        { (startRun (some "naive") "r1" 100 (LogState.init 0)).2 with
            eventLog := (LogState.init 0).eventLog ++
              [LogCall.call 1 EventKind.EAT_START [1, 2] 107].map
                (entryOf (some "r1") "naive" 100) } ∧
      (clearEventLog (LogState.init 0)).eventLog = []) :=
  ⟨by decide,
    log_entry_fields (LogState.init 0) "naive" "r1" 100
      [LogCall.call 1 EventKind.EAT_START [1, 2] 107] (by decide)⟩

/-- Claim C10: `startRun` with a missing or empty (falsy) algorithm name
still generates the fresh run id and resets the elapsed-time origin, but
keeps the previously set algorithm label, so subsequent events are tagged
with the old algorithm name. -/
theorem startRun_falsy_algorithm (st : LogState) (arg : Option String)
    (id : String) (t0 : Int) (h : arg = none ∨ arg = some "") :
    startRun arg id t0 st =
      (id, { st with currentRunId := some id, startTime := t0 }) ∧
    ∀ (p : Nat) (e : EventKind) (fks : List Nat) (now : Int),
      logEvent p e fks now (startRun arg id t0 st).2 =
        { st with
            currentRunId := some id
            startTime := t0
            eventLog := st.eventLog ++
              [{ runId := some id, algorithm := st.currentAlgorithm,
                 t := now - t0, phil := p, event := e, forks := fks }] } := by
  have halg : jsOrElse arg st.currentAlgorithm = st.currentAlgorithm := by
    rcases h with h | h <;> subst h <;> simp [jsOrElse]
  constructor
  · simp [startRun, halg]
  · intro p e fks now
    simp [startRun, logEvent, halg]

/-- Witness for C10: `startRun("")` on the initial state keeps the
`"unknown"` algorithm label while renewing the run id and origin, and a
later `log` call is tagged `"unknown"`. -/
theorem startRun_falsy_algorithm_witness :
    ((some "" : Option String) = none ∨ (some "" : Option String) = some "") ∧
    startRun (some "") "r2" 50 (LogState.init 0) =
      ("r2", { LogState.init 0 with currentRunId := some "r2", startTime := 50 }) ∧
    logEvent 3 EventKind.TRY [3, 4] 60
        (startRun (some "") "r2" 50 (LogState.init 0)).2 =
      { LogState.init 0 with
          currentRunId := some "r2"
          startTime := 50
          eventLog := (LogState.init 0).eventLog ++
            [{ runId := some "r2", algorithm := (LogState.init 0).currentAlgorithm,
               t := 60 - 50, phil := 3, event := EventKind.TRY, forks := [3, 4] }] } :=
  ⟨Or.inr rfl,
   (startRun_falsy_algorithm (LogState.init 0) (some "") "r2" 50 (Or.inr rfl)).1,
   (startRun_falsy_algorithm (LogState.init 0) (some "") "r2" 50 (Or.inr rfl)).2
     3 EventKind.TRY [3, 4] 60⟩

/-- Reading back the updated position after a list update. -/
theorem getD_set_self (l : List Nat) :
    ∀ (i v : Nat), i < l.length → (l.set i v).getD i 0 = v := by
  induction l with
  | nil => intro i v h; simp at h
  | cons x xs ih =>
    intro i v h
    cases i with
    | zero => rfl
    | succ j =>
      simp only [List.set_cons_succ, List.getD_cons_succ]
      exact ih j v (by simpa using h)

/-- Reading another position after a list update. -/
theorem getD_set_ne (l : List Nat) :
    ∀ (i j v : Nat), i ≠ j → (l.set i v).getD j 0 = l.getD j 0 := by
  induction l with
  | nil => intro i j v _; simp
  | cons x xs ih =>
    intro i j v h
    cases i with
    | zero =>
      cases j with
      | zero => exact absurd rfl h
      | succ m => rfl
    | succ nn =>
      cases j with
      | zero => rfl
      | succ m =>
        simp only [List.set_cons_succ, List.getD_cons_succ]
        exact ih nn m v (fun e => h (by rw [e]))

/-- Every position of the all-zero list reads zero. -/
theorem getD_replicate_zero : ∀ (n i : Nat), (List.replicate n 0).getD i 0 = 0 := by
  intro n
  induction n with
  | zero => intro i; simp
  | succ m ih =>
    intro i
    cases i with
    | zero => rfl
    | succ j => simp [List.replicate, ih j]

/-- The meal-count field after one analyzer step: incremented at the actor's
position exactly on EAT_END, untouched otherwise. -/
theorem analyzeStep_meals (n idx : Nat) (res : AnalysisResults) (e : Entry) :
    (analyzeStep n idx res e).mealsPerPhilosopher =
      if e.event = EventKind.EAT_END then
        res.mealsPerPhilosopher.set e.phil
          (res.mealsPerPhilosopher.getD e.phil 0 + 1)
      else res.mealsPerPhilosopher := by
  cases he : e.event <;> simp [analyzeStep, he] <;> split_ifs <;> rfl

/-- One analyzer step preserves the length of the meal-count array. -/
theorem analyzeStep_meals_length (n idx : Nat) (res : AnalysisResults) (e : Entry) :
    (analyzeStep n idx res e).mealsPerPhilosopher.length =
      res.mealsPerPhilosopher.length := by
  rw [analyzeStep_meals]
  split_ifs <;> simp

/-- Running the analyzer loop adds, at each position `i < n`, exactly the
number of EAT_END entries of actor `i` in the remaining log. -/
theorem analyzeFrom_meals (n : Nat) (l : List Entry) :
    ∀ (idx : Nat) (res : AnalysisResults) (i : Nat), i < n →
      res.mealsPerPhilosopher.length = n →
      (analyzeFrom n idx res l).mealsPerPhilosopher.getD i 0 =
        res.mealsPerPhilosopher.getD i 0 +
          l.countP (fun e => decide (e.event = EventKind.EAT_END ∧ e.phil = i)) := by
  induction l with
  | nil => intro idx res i hi hlen; simp [analyzeFrom]
  | cons e rest ih =>
    intro idx res i hi hlen
    rw [analyzeFrom, ih (idx + 1) _ i hi (by rw [analyzeStep_meals_length, hlen]),
      analyzeStep_meals, List.countP_cons]
    by_cases hev : e.event = EventKind.EAT_END
    · by_cases hp : e.phil = i
      · rw [if_pos hev, hp, getD_set_self _ i _ (by rw [hlen]; exact hi)]
        simp [hev, hp]
        omega
      · rw [if_pos hev, getD_set_ne _ e.phil i _ hp]
        simp [hev, hp]
    · rw [if_neg hev]
      simp [hev]

/-- Claim C7: `analyzeLog` is a pure function of the event sequence and `N`
that (a) makes each actor's final meal count exactly the number of its
EAT_END events, (b) on EAT_START appends one mutual-exclusion violation per
ring neighbor currently in the eating set and then adds the actor to it,
(c) on EAT_END appends a sequence error exactly when the actor is not in
the eating set, then removes the actor from it and increments the actor's
meal count, and (d) leaves the analysis state unchanged on
TRY/ACQUIRE/RELEASE/TIMEOUT events. -/
theorem analyzeLog_contract :
    (∀ (l : List Entry) (n i : Nat), i < n →
      (analyzeLog l n).mealsPerPhilosopher.getD i 0 =
        l.countP (fun e => decide (e.event = EventKind.EAT_END ∧ e.phil = i))) ∧
    (∀ (n idx : Nat) (res : AnalysisResults) (e : Entry),
      e.event = EventKind.EAT_START →
      analyzeStep n idx res e =
        { res with
            mutualExclusionViolations := res.mutualExclusionViolations ++
              (if leftNeighbor n e.phil ∈ res.currentlyEating then
                [{ index := idx
                   error := "Philosopher " ++ toString e.phil ++
                     " started eating while neighbor " ++
                     toString (leftNeighbor n e.phil) ++ " is eating" }]
               else []) ++
              (if rightNeighbor n e.phil ∈ res.currentlyEating then
                [{ index := idx
                   error := "Philosopher " ++ toString e.phil ++
                     " started eating while neighbor " ++
                     toString (rightNeighbor n e.phil) ++ " is eating" }]
               else []),
            currentlyEating := setAdd res.currentlyEating e.phil }) ∧
    (∀ (n idx : Nat) (res : AnalysisResults) (e : Entry),
      e.event = EventKind.EAT_END →
      analyzeStep n idx res e =
        { res with
            sequenceErrors := res.sequenceErrors ++
              (if e.phil ∈ res.currentlyEating then []
               else
                [{ index := idx
                   error := "Philosopher " ++ toString e.phil ++
                     " ended eating but was not eating" }]),
            currentlyEating := setDelete res.currentlyEating e.phil,
            mealsPerPhilosopher := res.mealsPerPhilosopher.set e.phil
              (res.mealsPerPhilosopher.getD e.phil 0 + 1) }) ∧
    (∀ (n idx : Nat) (res : AnalysisResults) (e : Entry),
      (e.event = EventKind.TRY ∨ e.event = EventKind.ACQUIRE ∨
        e.event = EventKind.RELEASE ∨ e.event = EventKind.TIMEOUT) →
      analyzeStep n idx res e = res) := by
  refine ⟨?_, ?_, ?_, ?_⟩
  · intro l n i hi
    rw [analyzeLog, analyzeFrom_meals n l 0 (analyzeInit n) i hi (by simp [analyzeInit])]
    simp [analyzeInit, getD_replicate_zero]
  · intro n idx res e he
    by_cases hl : leftNeighbor n e.phil ∈ res.currentlyEating <;>
      by_cases hr : rightNeighbor n e.phil ∈ res.currentlyEating <;>
      simp [analyzeStep, he, hl, hr]
  · intro n idx res e he
    by_cases hp : e.phil ∈ res.currentlyEating <;> simp [analyzeStep, he, hp]
  · intro n idx res e he
    rcases he with he | he | he | he <;> simp [analyzeStep, he]

/-- Witness for C7: a two-event log where actor 0 eats once; its meal count
is 1, and an ignored TRY event leaves the analysis state unchanged. -/
theorem analyzeLog_contract_witness :
    (0 < 2 ∧
      (analyzeLog
          [{ runId := none, algorithm := "a", t := 0, phil := 0,
             event := EventKind.EAT_START, forks := [0, 1] },
           { runId := none, algorithm := "a", t := 1, phil := 0,
             event := EventKind.EAT_END, forks := [0, 1] }]
          2).mealsPerPhilosopher.getD 0 0 =
        ([{ runId := none, algorithm := "a", t := 0, phil := 0,
            event := EventKind.EAT_START, forks := [0, 1] },
          { runId := none, algorithm := "a", t := 1, phil := 0,
            event := EventKind.EAT_END, forks := [0, 1] }] : List Entry).countP
          (fun e => decide (e.event = EventKind.EAT_END ∧ e.phil = 0))) ∧
    ((({ runId := none, algorithm := "a", t := 2, phil := 1,
         event := EventKind.TRY, forks := [1, 2] } : Entry).event = EventKind.TRY ∨
        ({ runId := none, algorithm := "a", t := 2, phil := 1,
           event := EventKind.TRY, forks := [1, 2] } : Entry).event = EventKind.ACQUIRE ∨
        ({ runId := none, algorithm := "a", t := 2, phil := 1,
           event := EventKind.TRY, forks := [1, 2] } : Entry).event = EventKind.RELEASE ∨
        ({ runId := none, algorithm := "a", t := 2, phil := 1,
           event := EventKind.TRY, forks := [1, 2] } : Entry).event = EventKind.TIMEOUT) ∧
      analyzeStep 2 0 (analyzeInit 2)
          { runId := none, algorithm := "a", t := 2, phil := 1,
            event := EventKind.TRY, forks := [1, 2] } = analyzeInit 2) :=
  ⟨⟨by decide,
    analyzeLog_contract.1
      [{ runId := none, algorithm := "a", t := 0, phil := 0,
         event := EventKind.EAT_START, forks := [0, 1] },
       { runId := none, algorithm := "a", t := 1, phil := 0,
         event := EventKind.EAT_END, forks := [0, 1] }] 2 0 (by decide)⟩,
   ⟨Or.inl rfl,
    analyzeLog_contract.2.2.2 2 0 (analyzeInit 2)
      { runId := none, algorithm := "a", t := 2, phil := 1,
        event := EventKind.TRY, forks := [1, 2] } (Or.inl rfl)⟩⟩

/-- Counting over a strategy trace built from `count` cycles: one matching
action per cycle gives `count` matches in total. -/
theorem countP_flatMap_range (p : PhilAction → Bool)
    (body : Nat → List PhilAction) (c : Nat)
    (hone : ∀ i, (body i).countP p = 1) :
    ((List.range c).flatMap body).countP p = c := by
  induction c with
  | zero => simp
  | succ c ih =>
    rw [List.range_succ, List.flatMap_append, List.countP_append, ih]
    simp [hone]

/-- Filtering a strategy trace built from `count` cycles: the same matching
sublist per cycle gives their concatenation. -/
theorem filter_flatMap_range (p : PhilAction → Bool)
    (body : Nat → List PhilAction) (q : List PhilAction) (c : Nat)
    (hq : ∀ i, (body i).filter p = q) :
    ((List.range c).flatMap body).filter p = (List.range c).flatMap (fun _ => q) := by
  induction c with
  | zero => simp
  | succ c ih =>
    rw [List.range_succ, List.flatMap_append, List.filter_append, ih,
      List.flatMap_append]
    simp [hq]

/-- A blocking acquisition contributes no EAT_START/EAT_END action. -/
theorem eatActs_acquireActs (t : Nat) (ctx : List Nat) (j : Nat) :
    (acquireActs t ctx j).filter isEatAct = [] := by
  rw [List.filter_eq_nil_iff]
  intro a ha
  simp [acquireActs] at ha
  rcases ha with rfl | ⟨k, _, rfl⟩ | rfl <;> simp [isEatAct, isEatStartAct, isEatEndAct]

/-- The eat-and-release tail contributes exactly one EAT_START then one
EAT_END. -/
theorem eatActs_eatThenRelease (f1 f2 : Nat) :
    (eatThenRelease f1 f2).filter isEatAct =
      [PhilAction.eatStart [f1, f2], PhilAction.eatEnd [f1, f2]] := by
  simp [eatThenRelease, isEatAct, isEatStartAct, isEatEndAct]

/-- Filtering a list for eat actions and then counting; helper to turn the
eat-event subsequence into EAT_START/EAT_END counts. -/
theorem countP_eq_countP_filter_eat (p : PhilAction → Bool) (tr : List PhilAction)
    (hp : ∀ a, p a = true → isEatAct a = true) :
    tr.countP p = (tr.filter isEatAct).countP p := by
  induction tr with
  | nil => rfl
  | cons a rest ih =>
    by_cases hpa : p a = true
    · rw [List.countP_cons_of_pos _ _ hpa, List.filter_cons_of_pos (hp a hpa),
        List.countP_cons_of_pos _ _ hpa, ih]
    · by_cases hea : isEatAct a = true
      · rw [List.countP_cons_of_neg _ _ hpa, List.filter_cons_of_pos hea,
          List.countP_cons_of_neg _ _ hpa, ih]
      · rw [List.countP_cons_of_neg _ _ hpa,
          List.filter_cons_of_neg (by simpa using hea), ih]

/-- The eat-event subsequence of each strategy trace: the same EAT_START
then EAT_END pair, `count` times. -/
theorem eatEvents_strategies (id n count : Nat) (waitsOf : Nat → Nat) :
    eatEvents (startNaiveTrace id n count waitsOf) =
      (List.range count).flatMap (fun _ =>
        [PhilAction.eatStart [id % n, (id + 1) % n],
         PhilAction.eatEnd [id % n, (id + 1) % n]]) ∧
    eatEvents (startAsymTrace id n count waitsOf) =
      (List.range count).flatMap (fun _ =>
        [PhilAction.eatStart [id % n, (id + 1) % n],
         PhilAction.eatEnd [id % n, (id + 1) % n]]) ∧
    eatEvents (startConductorTrace id n count waitsOf) =
      (List.range count).flatMap (fun _ =>
        [PhilAction.eatStart [id % n, (id + 1) % n],
         PhilAction.eatEnd [id % n, (id + 1) % n]]) ∧
    eatEvents (startSimultaneousTrace id n count waitsOf) =
      (List.range count).flatMap (fun _ =>
        [PhilAction.eatStart [id % n, (id + 1) % n],
         PhilAction.eatEnd [id % n, (id + 1) % n]]) := by
  refine ⟨?_, ?_, ?_, ?_⟩
  · apply filter_flatMap_range
    intro i
    simp [List.filter_append, eatActs_acquireActs, eatActs_eatThenRelease]
  · apply filter_flatMap_range
    intro i
    by_cases hpar : id % 2 = 0 <;>
      simp [hpar, List.filter_append, eatActs_acquireActs, eatActs_eatThenRelease]
  · apply filter_flatMap_range
    intro i
    simp [List.filter_append, eatActs_acquireActs, eatActs_eatThenRelease,
      isEatAct, isEatStartAct, isEatEndAct]
  · apply filter_flatMap_range
    intro i
    simp [List.filter_append, List.filter_map, eatActs_eatThenRelease,
      isEatAct, isEatStartAct, isEatEndAct, Function.comp_def]

/-- Claim C1: every strategy entry point (naive, asymmetric, conductor,
simultaneous), run for `count` meals, emits exactly `count` EAT_START/EAT_END
pairs — the eat-event subsequence of its trace is the EAT_START-then-EAT_END
pair repeated `count` times — so the actor's completed-meal count on
completion is exactly `count`. -/
theorem strategy_completion (id n count : Nat) (waitsOf : Nat → Nat) :
    (eatEvents (startNaiveTrace id n count waitsOf) =
        (List.range count).flatMap (fun _ =>
          [PhilAction.eatStart [id % n, (id + 1) % n],
           PhilAction.eatEnd [id % n, (id + 1) % n]]) ∧
      mealsInTrace (startNaiveTrace id n count waitsOf) = count ∧
      eatStartsInTrace (startNaiveTrace id n count waitsOf) = count) ∧
    (eatEvents (startAsymTrace id n count waitsOf) =
        (List.range count).flatMap (fun _ =>
          [PhilAction.eatStart [id % n, (id + 1) % n],
           PhilAction.eatEnd [id % n, (id + 1) % n]]) ∧
      mealsInTrace (startAsymTrace id n count waitsOf) = count ∧
      eatStartsInTrace (startAsymTrace id n count waitsOf) = count) ∧
    (eatEvents (startConductorTrace id n count waitsOf) =
        (List.range count).flatMap (fun _ =>
          [PhilAction.eatStart [id % n, (id + 1) % n],
           PhilAction.eatEnd [id % n, (id + 1) % n]]) ∧
      mealsInTrace (startConductorTrace id n count waitsOf) = count ∧
      eatStartsInTrace (startConductorTrace id n count waitsOf) = count) ∧
    (eatEvents (startSimultaneousTrace id n count waitsOf) =
        (List.range count).flatMap (fun _ =>
          [PhilAction.eatStart [id % n, (id + 1) % n],
           PhilAction.eatEnd [id % n, (id + 1) % n]]) ∧
      mealsInTrace (startSimultaneousTrace id n count waitsOf) = count ∧
      eatStartsInTrace (startSimultaneousTrace id n count waitsOf) = count) := by
  have hev := eatEvents_strategies id n count waitsOf
  have hEnd : ∀ a, isEatEndAct a = true → isEatAct a = true := by
    intro a h
    simp [isEatAct, h]
  have hStart : ∀ a, isEatStartAct a = true → isEatAct a = true := by
    intro a h
    simp [isEatAct, h]
  have hcountEnd : ∀ tr : List PhilAction,
      tr.filter isEatAct =
        (List.range count).flatMap (fun _ =>
          [PhilAction.eatStart [id % n, (id + 1) % n],
           PhilAction.eatEnd [id % n, (id + 1) % n]]) →
      tr.countP isEatEndAct = count := by
    intro tr htr
    rw [countP_eq_countP_filter_eat isEatEndAct tr hEnd, htr]
    apply countP_flatMap_range
    intro i
    simp [isEatEndAct]
  have hcountStart : ∀ tr : List PhilAction,
      tr.filter isEatAct =
        (List.range count).flatMap (fun _ =>
          [PhilAction.eatStart [id % n, (id + 1) % n],
           PhilAction.eatEnd [id % n, (id + 1) % n]]) →
      tr.countP isEatStartAct = count := by
    intro tr htr
    rw [countP_eq_countP_filter_eat isEatStartAct tr hStart, htr]
    apply countP_flatMap_range
    intro i
    simp [isEatStartAct]
  exact ⟨⟨hev.1, hcountEnd _ hev.1, hcountStart _ hev.1⟩,
    ⟨hev.2.1, hcountEnd _ hev.2.1, hcountStart _ hev.2.1⟩,
    ⟨hev.2.2.1, hcountEnd _ hev.2.2.1, hcountStart _ hev.2.2.1⟩,
    ⟨hev.2.2.2, hcountEnd _ hev.2.2.2, hcountStart _ hev.2.2.2⟩⟩

/-- The acquisition extraction distributes over trace concatenation. -/
theorem acquiredTargets_append (l1 l2 : List PhilAction) :
    acquiredTargets (l1 ++ l2) = acquiredTargets l1 ++ acquiredTargets l2 := by
  simp [acquiredTargets, List.filterMap_append]

/-- Backoff waits contribute no acquisition. -/
theorem acquiredTargets_waits (j : Nat) :
    acquiredTargets
      ((List.range j).map (fun k => PhilAction.waitMs (waitTimeAt k))) = [] := by
  rw [acquiredTargets, List.filterMap_eq_nil_iff]
  intro a ha
  simp [List.mem_map] at ha
  rcases ha with ⟨k, _, rfl⟩
  rfl

/-- A blocking acquisition of fork `t` contributes exactly the acquisition
`[t]`. -/
theorem acquiredTargets_acquireActs (t : Nat) (ctx : List Nat) (j : Nat) :
    acquiredTargets (acquireActs t ctx j) = [[t]] := by
  have hw := acquiredTargets_waits j
  rw [acquiredTargets] at hw
  simp [acquiredTargets, acquireActs, List.filterMap_cons, List.filterMap_append,
    hw, acquireTargetsOf]

/-- The eat-and-release tail contributes no acquisition. -/
theorem acquiredTargets_eatThenRelease (f1 f2 : Nat) :
    acquiredTargets (eatThenRelease f1 f2) = [] := by
  simp [acquiredTargets, eatThenRelease, List.filterMap_cons, acquireTargetsOf]

/-- Acquisitions of a trace built from `count` cycles: the same acquisitions
per cycle, concatenated. -/
theorem acquiredTargets_flatMap_range (body : Nat → List PhilAction)
    (q : List (List Nat)) (c : Nat) (hq : ∀ i, acquiredTargets (body i) = q) :
    acquiredTargets ((List.range c).flatMap body) =
      (List.range c).flatMap (fun _ => q) := by
  induction c with
  | zero => simp [acquiredTargets]
  | succ c ih =>
    rw [List.range_succ, List.flatMap_append, acquiredTargets_append, ih,
      List.flatMap_append]
    simp [hq]

/-- Claim C4: in the asymmetric strategy, in every iteration, an actor with
even identity acquires its left fork `id % n` before its right fork
`(id + 1) % n`, and an actor with odd identity acquires its right fork
before its left fork, each as a separate sequential acquisition. -/
theorem asym_fork_order (id n count : Nat) (waitsOf : Nat → Nat) :
    acquiredTargets (startAsymTrace id n count waitsOf) =
      (List.range count).flatMap (fun _ =>
        if id % 2 = 0 then [[id % n], [(id + 1) % n]]
        else [[(id + 1) % n], [id % n]]) := by
  rw [startAsymTrace]
  apply acquiredTargets_flatMap_range
  intro i
  by_cases hpar : id % 2 = 0 <;>
    simp [hpar, acquiredTargets_append, acquiredTargets_acquireActs,
      acquiredTargets_eatThenRelease]

/-- Invariant preserved by every conductor call: the capacity is fixed and
the occupied-seat count never exceeds it. -/
theorem conductor_runOps_invariant (ops : List CondOp) :
    ∀ c : Conductor, c.occupied ≤ c.capacity →
      (Conductor.runOps c ops).occupied ≤ (Conductor.runOps c ops).capacity ∧
      (Conductor.runOps c ops).capacity = c.capacity := by
  induction ops with
  | nil => intro c h; exact ⟨h, rfl⟩
  | cons op rest ih =>
    intro c h
    have hstep : (c.applyOp op).occupied ≤ (c.applyOp op).capacity ∧
        (c.applyOp op).capacity = c.capacity := by
      cases op with
      | request caller =>
        by_cases hlt : c.occupied < c.capacity <;>
          simp [Conductor.applyOp, Conductor.requestSeat, hlt] <;> omega
      | leave =>
        cases hw : c.waiting <;>
          simp [Conductor.applyOp, Conductor.leaveSeat, hw] <;> omega
    have hrest := ih (c.applyOp op) hstep.1
    rw [show Conductor.runOps c (op :: rest) =
      Conductor.runOps (c.applyOp op) rest from rfl]
    exact ⟨hrest.1, hrest.2.trans hstep.2⟩

/-- Claim C5: `requestSeat` returns immediately, occupying a seat, exactly
when fewer than `capacity` seats are occupied, and otherwise appends the
caller to the FIFO queue; `leaveSeat` hands the freed seat directly to the
head waiter when one is queued (occupied count unchanged) and otherwise
decrements the occupied count; and under every interleaving of calls
starting from `Conductor.init C`, the occupied count never exceeds `C`. -/
theorem conductor_fifo_capacity :
    (∀ (c : Conductor) (caller : Nat), c.occupied < c.capacity →
      c.requestSeat caller =
        (SeatOutcome.granted, { c with occupied := c.occupied + 1 })) ∧
    (∀ (c : Conductor) (caller : Nat), ¬ c.occupied < c.capacity →
      c.requestSeat caller =
        (SeatOutcome.enqueued, { c with waiting := c.waiting ++ [caller] })) ∧
    (∀ (c : Conductor) (w : Nat) (rest : List Nat), c.waiting = w :: rest →
      c.leaveSeat = (some w, { c with waiting := rest })) ∧
    (∀ c : Conductor, c.waiting = [] →
      c.leaveSeat = (none, { c with occupied := c.occupied - 1 })) ∧
    (∀ (maxSeats : Nat) (ops : List CondOp),
      (Conductor.runOps (Conductor.init maxSeats) ops).occupied ≤ maxSeats) := by
  refine ⟨?_, ?_, ?_, ?_, ?_⟩
  · intro c caller h
    simp [Conductor.requestSeat, h]
  · intro c caller h
    simp [Conductor.requestSeat, h]
  · intro c w rest h
    simp [Conductor.leaveSeat, h]
  · intro c h
    simp [Conductor.leaveSeat, h]
  · intro maxSeats ops
    have h := conductor_runOps_invariant ops (Conductor.init maxSeats)
      (by simp [Conductor.init])
    exact le_trans h.1 (le_of_eq h.2)

/-- Witness for C5: with capacity 4 and no seat taken, a request is granted
at once; with two queued waiters, leaving a seat resumes the first-enqueued
waiter and transfers the seat. -/
theorem conductor_fifo_capacity_witness :
    ((Conductor.init 4).occupied < (Conductor.init 4).capacity ∧
      (Conductor.init 4).requestSeat 0 =
        (SeatOutcome.granted,
          { Conductor.init 4 with occupied := (Conductor.init 4).occupied + 1 })) ∧
    ((⟨4, 4, [2, 3]⟩ : Conductor).waiting = 2 :: [3] ∧
      (⟨4, 4, [2, 3]⟩ : Conductor).leaveSeat =
        (some 2, { (⟨4, 4, [2, 3]⟩ : Conductor) with waiting := [3] })) :=
  ⟨⟨by decide, conductor_fifo_capacity.1 (Conductor.init 4) 0 (by decide)⟩,
   ⟨by decide,
    conductor_fifo_capacity.2.2.1 (⟨4, 4, [2, 3]⟩ : Conductor) 2 [3] (by decide)⟩⟩

end Phil
